import Mathlib

/-!
# sparkpost-rt: the address router and the webhook handler of `main.go`

A shallow embedding of `addressToQueueAction` and `postHandler`.

Modelling decisions, each one visible in the definitions below.

* A Go `string` is a `GoString`, the list of its code points.  Offsets are byte
  offsets of the UTF-8 encoding, as in Go (`Index`, `sliceTo`, `sliceFrom`).
* `strings.ToLower` is the standard library's rune-by-rune map of
  `unicode.ToLower`.  The rune map is the argument `lower`; `asciiLower` is the
  instance used on concrete ASCII inputs.
* `addressQueueMap` is a Go map.  A `range` statement over a map visits the
  entries in an order of its own, so the two `range` statements executed by one
  call of `addressToQueueAction` get one order each (`first`, `second`).
* `http.PostForm` and `json.Unmarshal` are the outside world: the handler takes
  the result of the decoding and, for each call number, the result of the POST.
* Log output is not modelled.
-/

namespace SparkpostRT

/-- A Go string: its code points; offsets into it count UTF-8 bytes. -/
abbrev GoString := List Char

/-- The literal `"correspond"`. -/
def correspond : GoString := "correspond".toList

/-- The literal `"comment"`. -/
def comment : GoString := "comment".toList

/-- The literal `"-comment"` spliced into a table key. -/
def commentSuffix : GoString := "-comment".toList

/-- The literal `"inbound"`, the discriminator of the events that are forwarded. -/
def inbound : GoString := "inbound".toList

/-- Rune map of `strings.ToLower` on ASCII input: `A`..`Z` go to `a`..`z`. -/
def asciiLower (c : Char) : Char :=
  if 65 ≤ c.toNat ∧ c.toNat ≤ 90 then Char.ofNat (c.toNat + 32) else c

/-- Go `strings.ToLower(s)`: every rune is replaced by its lower case. -/
def ToLower (lower : Char → Char) (s : GoString) : GoString :=
  s.map lower

/-- Go `strings.Index(s, sep)` for a one-rune separator: the byte offset of the
first occurrence of `sep` in `s`, and `-1` when there is none. -/
def Index (s : GoString) (sep : Char) : Int :=
  match s with
  | [] => -1
  | x :: xs =>
    if x = sep then 0
    else
      let r := Index xs sep
      if r < 0 then -1 else (x.utf8Size : Int) + r

/-- Go slice expression `s[0:hi]`, with `hi` a byte offset at a rune boundary. -/
def sliceTo (s : GoString) (hi : Int) : GoString :=
  match s with
  | [] => []
  | x :: xs => if hi ≤ 0 then [] else x :: sliceTo xs (hi - (x.utf8Size : Int))

/-- Go slice expression `s[lo:]`, with `lo` a byte offset at a rune boundary. -/
def sliceFrom (s : GoString) (lo : Int) : GoString :=
  match s with
  | [] => []
  | x :: xs => if lo ≤ 0 then x :: xs else sliceFrom xs (lo - (x.utf8Size : Int))

/-- The type `AddressQueue` (`map[string]string`), as the list of its
`(target, queue)` entries in the order one `range` statement visits them. -/
abbrev AddressQueue := List (GoString × GoString)

/-- Lines 190-194 of `main.go`: the value `target` holds after the `if`/`else`
that splices `-comment` into the table key.  The `if` assigns to the outer `idx`,
which is not read again: `local` was sliced before the loops. -/
def commentTarget (target : GoString) : GoString :=
  let idx := Index target '@'
  if idx > 0 then sliceTo target idx ++ commentSuffix ++ sliceFrom target idx
  else target ++ commentSuffix

/-- The inner loop `for target, queue := range addressQueueMap` of
`addressToQueueAction` for one candidate `address`: `some` result when an
iteration returns, `none` when the loop runs to its end. -/
def rangeQueueMap (address : GoString) : AddressQueue → Option (GoString × GoString)
  | [] => none
  | (target, queue) :: rest =>
    if address = target then some (queue, correspond)
    else if address = commentTarget target then some (queue, comment)
    else rangeQueueMap address rest

/-- The function `addressToQueueAction` of `main.go`.  `first` and `second` are
the orders in which the map is visited for the candidate `email` and for the
candidate `local`. -/
def addressToQueueAction (lower : Char → Char) (first second : AddressQueue)
    (email : GoString) : GoString × GoString :=
  let email := ToLower lower email
  let idx := Index email '@'
  if idx < 1 then ([], correspond)
  else
    let localPart := sliceTo email idx
    match rangeQueueMap email first with
    | some found => found
    | none =>
      match rangeQueueMap localPart second with
      | some found => found
      | none => ([], correspond)

/-- The comment-suffixed variant of a table key, in the words of the specification:
"if the key contains `@`, insert the literal suffix `-comment` immediately before
the `@`; if it has no `@`, append `-comment` to the end". -/
def commentSuffixed (key : GoString) : GoString :=
  if '@' ∈ key then
    key.takeWhile (fun c => decide (c ≠ '@')) ++ commentSuffix
      ++ key.dropWhile (fun c => decide (c ≠ '@'))
  else key ++ commentSuffix

/-- The orders `first` and `second` are two ways a `range` statement may visit the
map with the entries `table`: the keys of a map are distinct, and a `range` visits
every entry once. -/
def Ranges (table first second : AddressQueue) : Prop :=
  (table.map Prod.fst).Nodup ∧ first.Perm table ∧ second.Perm table

instance (table first second : AddressQueue) : Decidable (Ranges table first second) := by
  unfold Ranges
  infer_instance

/-- The table of the specification's example: `{"support@x.com": "support"}`. -/
def supportTable : AddressQueue := [("support@x.com".toList, "support".toList)]

/-- A table whose only key is a bare local part: `{"support": "support"}`. -/
def bareTable : AddressQueue := [("support".toList, "support".toList)]

/-- A table whose only key has an upper-case letter: `{"Support@x.com": "support"}`. -/
def upperTable : AddressQueue := [("Support@x.com".toList, "support".toList)]

/-- A table whose only key has an empty local part: `{"@x.com": "catchall"}`. -/
def emptyLocalTable : AddressQueue := [("@x.com".toList, "catchall".toList)]

/-- A table in which one key is the comment-suffixed variant of the other:
`{"a@x.com": "q1", "a-comment@x.com": "q2"}`, visited in this order. -/
def shadowTable : AddressQueue :=
  [("a@x.com".toList, "q1".toList), ("a-comment@x.com".toList, "q2".toList)]

/-- A table with a full address and a bare local part:
`{"support@x.com": "support", "sales": "sales"}`, visited in this order. -/
def mixedTable : AddressQueue :=
  [("support@x.com".toList, "support".toList), ("sales".toList, "sales".toList)]

/-- The struct `MandrillMsg`.  Its field `Headers` (a `map[string]interface{}`
that the handler never reads) is left out. -/
structure MandrillMsg where
  RawMsg : GoString
  Text : GoString
  Email : GoString
  FromEmail : GoString
  Subject : GoString
deriving DecidableEq

/-- The struct `MandrillEvent`. -/
structure MandrillEvent where
  Event : GoString
  Msg : MandrillMsg
deriving DecidableEq

/-- The `url.Values` posted to the gateway: the keys `queue`, `action` and
`message`, one value each. -/
structure Form where
  queue : GoString
  action : GoString
  message : GoString
deriving DecidableEq

/-- The part of an `*http.Response` that decides the handler's result. -/
structure Response where
  StatusCode : Int
deriving DecidableEq

/-- The two results of `http.PostForm`: `resp` is `none` for the nil pointer, and
`err` is true for `err != nil`. -/
structure PostResult where
  resp : Option Response
  err : Bool
deriving DecidableEq

/-- How a run of `postHandler` ends: with `w.WriteHeader(code)`, or with the
run-time panic of a nil pointer dereference before any header is written. -/
inductive Written where
  | header (code : Nat)
  | panicked
deriving DecidableEq

/-- What a run of `postHandler` did: the forms it posted, in order, and how it ended. -/
structure Handled where
  posts : List Form
  written : Written
deriving DecidableEq

/-- The loop `for _, event := range events` of `postHandler` (lines 83-124).
`events` is a `[]*MandrillEvent`: the element `none` is the nil pointer that
`json.Unmarshal` stores for the JSON value `null`.  `posts` are the forms posted so
far and `gotErr` is the variable of that name.  `ranges n` gives the two orders in
which the `n`-th call of `addressToQueueAction` visits the map, and `PostForm n`
is what the `n`-th call of `http.PostForm` returns.  The result is the forms
posted and the final `gotErr`, or `none` when the loop stopped in a panic: at
`event.Event` for a nil event (line 84), or at `resp.Body` for a nil response
(line 113).  A non-nil `err` is only logged (lines 110-112), and
`json.MarshalIndent` and `ioutil.ReadAll` only feed the log. -/
def rangeEvents (lower : Char → Char) (ranges : Nat → AddressQueue × AddressQueue)
    (PostForm : Nat → Form → PostResult) :
    List (Option MandrillEvent) → List Form → Bool → List Form × Option Bool
  | [], posts, gotErr => (posts, some gotErr)
  | none :: _, posts, _ => (posts, none)
  | some event :: rest, posts, gotErr =>
    if event.Event ≠ inbound then rangeEvents lower ranges PostForm rest posts gotErr
    else
      let routed := addressToQueueAction lower (ranges posts.length).1 (ranges posts.length).2
        event.Msg.Email
      let form : Form := ⟨routed.1, routed.2, event.Msg.RawMsg⟩
      match (PostForm posts.length form).resp with
      | none => (posts ++ [form], none)
      | some resp =>
        rangeEvents lower ranges PostForm rest (posts ++ [form])
          (if resp.StatusCode > 299 then true else gotErr)

/-- The function `postHandler` of `main.go`, from the call of `json.Unmarshal` on.
`decoded` is the result of `json.Unmarshal([]byte(eventsStr), &events)`: `none`
when it returns an error, the slice `events` otherwise. -/
def postHandler (lower : Char → Char) (ranges : Nat → AddressQueue × AddressQueue)
    (PostForm : Nat → Form → PostResult) (decoded : Option (List (Option MandrillEvent))) :
    Handled :=
  match decoded with
  | none => ⟨[], Written.header 500⟩
  | some events =>
    match rangeEvents lower ranges PostForm events [] false with
    | (posts, none) => ⟨posts, Written.panicked⟩
    | (posts, some gotErr) => ⟨posts, Written.header (if gotErr then 503 else 204)⟩

/-- An `inbound` event for `Support@X.com`. -/
def inboundSupport : MandrillEvent :=
  ⟨inbound, ⟨"raw-1".toList, [], "Support@X.com".toList, "a@y.org".toList, "one".toList⟩⟩

/-- An `inbound` event for `other@x.com`. -/
def inboundOther : MandrillEvent :=
  ⟨inbound, ⟨"raw-2".toList, [], "other@x.com".toList, "b@y.org".toList, "two".toList⟩⟩

/-- An event of another kind, `send`. -/
def sendEvent : MandrillEvent :=
  ⟨"send".toList, ⟨"raw-3".toList, [], "support@x.com".toList, "c@y.org".toList, "three".toList⟩⟩

/-- Every call of `addressToQueueAction` visits the example table in its one order. -/
def supportRanges : Nat → AddressQueue × AddressQueue :=
  fun _ => (supportTable, supportTable)

/-- A gateway that answers every POST with status 200. -/
def gatewayOk : Nat → Form → PostResult :=
  fun _ _ => ⟨some ⟨200⟩, false⟩

/-- A gateway that cannot be reached for the first POST (`http.PostForm` returns a
nil response and an error) and answers every later POST with status 200. -/
def gatewayFirstUnreachable : Nat → Form → PostResult :=
  fun n _ => if n = 0 then ⟨none, true⟩ else ⟨some ⟨200⟩, false⟩

/-- The events of a decoded batch whose discriminator equals `"inbound"`, in array
order, in the words of the specification ("only `"inbound"` events represent
messages to route"); a `null` element is no event. -/
def inboundEvents (events : List (Option MandrillEvent)) : List MandrillEvent :=
  events.filterMap (fun e =>
    match e with
    | some event => if event.Event = inbound then some event else none
    | none => none)

/-- The form the specification asks for the `n`-th forwarded event: `queue` and
`action` as routed for its destination address, `message` its raw message text. -/
def formOf (lower : Char → Char) (ranges : Nat → AddressQueue × AddressQueue) (n : Nat)
    (event : MandrillEvent) : Form :=
  ⟨(addressToQueueAction lower (ranges n).1 (ranges n).2 event.Msg.Email).1,
    (addressToQueueAction lower (ranges n).1 (ranges n).2 event.Msg.Email).2,
    event.Msg.RawMsg⟩

/-- The `n`-th POST, of the form `form`, got a response with a status above 299. -/
def rejected (PostForm : Nat → Form → PostResult) (n : Nat) (form : Form) : Bool :=
  match (PostForm n form).resp with
  | some resp => decide (resp.StatusCode > 299)
  | none => false

/-! ## Offsets and slices -/

theorem utf8Size_pos_int (c : Char) : (0 : Int) < (c.utf8Size : Int) := by
  have h := Char.utf8Size_pos c
  omega

theorem Index_ge (s : GoString) (sep : Char) : -1 ≤ Index s sep := by
  induction s with
  | nil => simp [Index]
  | cons x xs ih =>
    have hx := utf8Size_pos_int x
    simp only [Index]
    split
    · omega
    · split <;> omega

theorem Index_neg_iff (s : GoString) (sep : Char) : Index s sep < 0 ↔ sep ∉ s := by
  induction s with
  | nil => simp [Index]
  | cons x xs ih =>
    have hx := utf8Size_pos_int x
    have hge := Index_ge xs sep
    simp only [Index, List.mem_cons, not_or]
    by_cases hxs : x = sep
    · simp [hxs]
    · have hne : ¬ sep = x := fun h => hxs h.symm
      simp only [hxs, if_false, hne, not_false_eq_true, true_and]
      rw [← ih]
      split <;> omega

theorem Index_lt_one_iff (s : GoString) (sep : Char) :
    Index s sep < 1 ↔ sep ∉ s ∨ ∃ rest, s = sep :: rest := by
  cases s with
  | nil => simp [Index]
  | cons x xs =>
    have hx := utf8Size_pos_int x
    have hge := Index_ge xs sep
    have hneg := Index_neg_iff xs sep
    simp only [Index, List.mem_cons, not_or, List.cons.injEq, exists_and_right, exists_eq', and_true]
    by_cases hxs : x = sep
    · simp [hxs]
    · have hne : ¬ sep = x := fun h => hxs h.symm
      simp only [hxs, if_false, hne, not_false_eq_true, true_and, false_and, exists_false,
        or_false]
      rw [← hneg]
      split <;> constructor <;> intro _ <;> omega

theorem sliceTo_Index (s : GoString) (sep : Char) (h : sep ∈ s) :
    sliceTo s (Index s sep) = s.takeWhile (fun c => decide (c ≠ sep)) := by
  induction s with
  | nil => simp at h
  | cons x xs ih =>
    have hx := utf8Size_pos_int x
    by_cases hxs : x = sep
    · simp [Index, sliceTo, hxs, List.takeWhile_cons]
    · have hmem : sep ∈ xs := by
        rcases List.mem_cons.mp h with h1 | h1
        · exact absurd h1.symm hxs
        · exact h1
      have hnn : ¬ Index xs sep < 0 := by
        rw [Index_neg_iff]; exact fun hc => hc hmem
      have hpos : ¬ ((x.utf8Size : Int) + Index xs sep ≤ 0) := by omega
      simp only [Index, hxs, if_false, hnn, sliceTo, hpos, List.takeWhile_cons, ne_eq,
        not_false_eq_true, decide_True, if_true, add_sub_cancel_left]
      rw [ih hmem]

theorem sliceFrom_Index (s : GoString) (sep : Char) (h : sep ∈ s) :
    sliceFrom s (Index s sep) = s.dropWhile (fun c => decide (c ≠ sep)) := by
  induction s with
  | nil => simp at h
  | cons x xs ih =>
    have hx := utf8Size_pos_int x
    by_cases hxs : x = sep
    · simp [Index, sliceFrom, hxs, List.dropWhile_cons]
    · have hmem : sep ∈ xs := by
        rcases List.mem_cons.mp h with h1 | h1
        · exact absurd h1.symm hxs
        · exact h1
      have hnn : ¬ Index xs sep < 0 := by
        rw [Index_neg_iff]; exact fun hc => hc hmem
      have hpos : ¬ ((x.utf8Size : Int) + Index xs sep ≤ 0) := by omega
      simp only [Index, hxs, if_false, hnn, sliceFrom, hpos, List.dropWhile_cons, ne_eq,
        not_false_eq_true, decide_True, if_true, add_sub_cancel_left]
      rw [ih hmem]

theorem mem_of_one_le_Index (s : GoString) (h : 1 ≤ Index s '@') : '@' ∈ s := by
  by_contra hc
  have := (Index_neg_iff s '@').mpr hc
  omega

theorem not_head_of_one_le_Index (s : GoString) (h : 1 ≤ Index s '@') (rest : GoString) :
    s ≠ '@' :: rest := by
  intro hc
  have := (Index_lt_one_iff s '@').mpr (Or.inr ⟨rest, hc⟩)
  omega

/-! ## Splitting a string at its first `@` -/

theorem split_first_at (k : GoString) (h : '@' ∈ k) :
    ∃ A B, k = A ++ '@' :: B ∧ '@' ∉ A := by
  induction k with
  | nil => simp at h
  | cons x xs ih =>
    by_cases hx : x = '@'
    · exact ⟨[], xs, by simp [hx], by simp⟩
    · have hmem : '@' ∈ xs := by
        rcases List.mem_cons.mp h with h1 | h1
        · exact absurd h1.symm hx
        · exact h1
      obtain ⟨A, B, hk, hA⟩ := ih hmem
      refine ⟨x :: A, B, by simp [hk], ?_⟩
      intro hc
      rcases List.mem_cons.mp hc with h1 | h1
      · exact hx h1.symm
      · exact hA h1

theorem takeWhile_split (A B : GoString) (hA : '@' ∉ A) :
    (A ++ '@' :: B).takeWhile (fun c => decide (c ≠ '@')) = A := by
  induction A with
  | nil => simp [List.takeWhile_cons]
  | cons x xs ih =>
    have hx : x ≠ '@' := fun hc => hA (by simp [hc])
    have hxs : '@' ∉ xs := fun hc => hA (List.mem_cons_of_mem _ hc)
    simpa [List.takeWhile_cons, hx] using ih hxs

theorem dropWhile_split (A B : GoString) (hA : '@' ∉ A) :
    (A ++ '@' :: B).dropWhile (fun c => decide (c ≠ '@')) = '@' :: B := by
  induction A with
  | nil => simp [List.dropWhile_cons]
  | cons x xs ih =>
    have hx : x ≠ '@' := fun hc => hA (by simp [hc])
    have hxs : '@' ∉ xs := fun hc => hA (List.mem_cons_of_mem _ hc)
    simpa [List.dropWhile_cons, hx] using ih hxs

theorem at_not_mem_commentSuffix : '@' ∉ commentSuffix := by decide

theorem commentSuffixed_split (A B : GoString) (hA : '@' ∉ A) :
    commentSuffixed (A ++ '@' :: B) = (A ++ commentSuffix) ++ '@' :: B := by
  have hm : '@' ∈ A ++ '@' :: B := by simp
  simp only [commentSuffixed, hm, if_true, takeWhile_split A B hA, dropWhile_split A B hA]

theorem commentSuffixed_of_not_mem (k : GoString) (h : '@' ∉ k) :
    commentSuffixed k = k ++ commentSuffix := by
  simp only [commentSuffixed, h, if_false]

theorem at_mem_commentSuffixed (k : GoString) : '@' ∈ commentSuffixed k ↔ '@' ∈ k := by
  by_cases h : '@' ∈ k
  · obtain ⟨A, B, hk, hA⟩ := split_first_at k h
    subst hk
    rw [commentSuffixed_split A B hA]
    simp
  · rw [commentSuffixed_of_not_mem k h]
    have := at_not_mem_commentSuffix
    simp [h, this]

theorem commentSuffixed_injective (a b : GoString)
    (h : commentSuffixed a = commentSuffixed b) : a = b := by
  have hma := at_mem_commentSuffixed a
  have hmb := at_mem_commentSuffixed b
  have hcs := at_not_mem_commentSuffix
  by_cases ha : '@' ∈ a
  · have hb : '@' ∈ b := hmb.mp (h ▸ hma.mpr ha)
    obtain ⟨A₁, B₁, hk₁, hA₁⟩ := split_first_at a ha
    obtain ⟨A₂, B₂, hk₂, hA₂⟩ := split_first_at b hb
    subst hk₁ hk₂
    rw [commentSuffixed_split A₁ B₁ hA₁, commentSuffixed_split A₂ B₂ hA₂] at h
    have h₁ : '@' ∉ A₁ ++ commentSuffix := by simp [hA₁, hcs]
    have h₂ : '@' ∉ A₂ ++ commentSuffix := by simp [hA₂, hcs]
    have ht := congrArg (List.takeWhile (fun c => decide (c ≠ '@'))) h
    have hd := congrArg (List.dropWhile (fun c => decide (c ≠ '@'))) h
    rw [takeWhile_split _ _ h₁, takeWhile_split _ _ h₂] at ht
    rw [dropWhile_split _ _ h₁, dropWhile_split _ _ h₂] at hd
    have hA : A₁ = A₂ := List.append_cancel_right ht
    have hB : B₁ = B₂ := by simpa using hd
    rw [hA, hB]
  · have hb : '@' ∉ b := fun hc => ha (hma.mp (h ▸ hmb.mpr hc))
    rw [commentSuffixed_of_not_mem a ha, commentSuffixed_of_not_mem b hb] at h
    exact List.append_cancel_right h

theorem commentSuffixed_ne_self (k : GoString) : commentSuffixed k ≠ k := by
  intro h
  have hl := congrArg List.length h
  by_cases hk : '@' ∈ k
  · obtain ⟨A, B, hk', hA⟩ := split_first_at k hk
    subst hk'
    rw [commentSuffixed_split A B hA] at hl
    simp [commentSuffix] at hl
    omega
  · rw [commentSuffixed_of_not_mem k hk] at hl
    simp [commentSuffix] at hl

theorem commentTarget_eq_commentSuffixed (k : GoString) (h : ∀ rest, k ≠ '@' :: rest) :
    commentTarget k = commentSuffixed k := by
  by_cases hm : '@' ∈ k
  · have hpos : Index k '@' > 0 := by
      by_contra hc
      have hlt : Index k '@' < 1 := by omega
      rcases (Index_lt_one_iff k '@').mp hlt with h1 | ⟨rest, h1⟩
      · exact h1 hm
      · exact h rest h1
    simp only [commentTarget, commentSuffixed, hpos, if_true, hm, sliceTo_Index k '@' hm,
      sliceFrom_Index k '@' hm]
  · have hneg : ¬ Index k '@' > 0 := by
      have := (Index_neg_iff k '@').mpr hm
      omega
    simp only [commentTarget, commentSuffixed, hneg, hm, if_false]

theorem commentTarget_of_head (rest : GoString) :
    commentTarget ('@' :: rest) = '@' :: (rest ++ commentSuffix) := by
  simp [commentTarget, Index]

/-- A candidate that does not begin with `@` and equals the spliced key of the
code equals the comment-suffixed key of the specification. -/
theorem eq_commentSuffixed_of_eq_commentTarget (a k : GoString)
    (ha : ∀ rest, a ≠ '@' :: rest) (h : a = commentTarget k) : a = commentSuffixed k := by
  by_cases hk : ∃ rest, k = '@' :: rest
  · obtain ⟨rest, hk⟩ := hk
    subst hk
    rw [commentTarget_of_head] at h
    exact absurd h (ha _)
  · rw [← commentTarget_eq_commentSuffixed k (fun rest hc => hk ⟨rest, hc⟩)]
    exact h

theorem one_le_Index_split (A B : GoString) (hA : '@' ∉ A) (hne : A ≠ []) :
    1 ≤ Index (A ++ '@' :: B) '@' := by
  by_contra hc
  have hlt : Index (A ++ '@' :: B) '@' < 1 := by omega
  rcases (Index_lt_one_iff _ '@').mp hlt with h1 | ⟨rest, h1⟩
  · exact h1 (by simp)
  · cases A with
    | nil => exact hne rfl
    | cons x xs =>
      have hx : x = '@' := by
        have := List.head_eq_of_cons_eq h1
        exact this
      exact hA (by simp [hx])

theorem takeWhile_not_head (s rest : GoString) :
    s.takeWhile (fun c => decide (c ≠ '@')) ≠ '@' :: rest := by
  intro hc
  have hmem : '@' ∈ s.takeWhile (fun c => decide (c ≠ '@')) := by
    rw [hc]
    exact List.mem_cons_self _ _
  have := List.mem_takeWhile_imp hmem
  simp at this

/-! ## The inner loop -/

theorem rangeQueueMap_eq_none (a : GoString) (o : AddressQueue)
    (h : ∀ e ∈ o, a ≠ e.1 ∧ a ≠ commentTarget e.1) : rangeQueueMap a o = none := by
  induction o with
  | nil => rfl
  | cons e rest ih =>
    obtain ⟨k, q⟩ := e
    have he := h (k, q) (List.mem_cons_self _ _)
    simp only [rangeQueueMap, he.1, he.2, if_false]
    exact ih (fun e' he' => h e' (List.mem_cons_of_mem _ he'))

theorem rangeQueueMap_none_elim (a : GoString) (o : AddressQueue)
    (h : rangeQueueMap a o = none) : ∀ e ∈ o, a ≠ e.1 ∧ a ≠ commentTarget e.1 := by
  induction o with
  | nil => simp
  | cons x rest ih =>
    obtain ⟨k, q⟩ := x
    by_cases h1 : a = k
    · simp [rangeQueueMap, h1] at h
    · by_cases h2 : a = commentTarget k
      · simp [rangeQueueMap, h1, ← h2] at h
      · simp only [rangeQueueMap, h1, h2, if_false] at h
        intro e he
        rcases List.mem_cons.mp he with h0 | h0
        · subst h0
          exact ⟨h1, h2⟩
        · exact ih h e h0

theorem rangeQueueMap_some (a : GoString) (o : AddressQueue) (r : GoString × GoString)
    (h : rangeQueueMap a o = some r) :
    ∃ e ∈ o, (a = e.1 ∧ r = (e.2, correspond)) ∨
      (a ≠ e.1 ∧ a = commentTarget e.1 ∧ r = (e.2, comment)) := by
  induction o with
  | nil => simp [rangeQueueMap] at h
  | cons e rest ih =>
    obtain ⟨k, q⟩ := e
    by_cases h1 : a = k
    · simp only [rangeQueueMap, h1, if_true, Option.some.injEq] at h
      exact ⟨(k, q), List.mem_cons_self _ _, Or.inl ⟨h1, h.symm⟩⟩
    · by_cases h2 : a = commentTarget k
      · simp only [rangeQueueMap, h1, if_false, ← h2, if_true, Option.some.injEq] at h
        exact ⟨(k, q), List.mem_cons_self _ _, Or.inr ⟨h1, h2, h.symm⟩⟩
      · simp only [rangeQueueMap, h1, h2, if_false] at h
        obtain ⟨e, he, hr⟩ := ih h
        exact ⟨e, List.mem_cons_of_mem _ he, hr⟩

theorem rangeQueueMap_of_unique (a : GoString) (o : AddressQueue) (r : GoString × GoString)
    (hex : ∃ e ∈ o, a = e.1 ∨ a = commentTarget e.1)
    (h1 : ∀ e ∈ o, a = e.1 → r = (e.2, correspond))
    (h2 : ∀ e ∈ o, a ≠ e.1 → a = commentTarget e.1 → r = (e.2, comment)) :
    rangeQueueMap a o = some r := by
  induction o with
  | nil =>
    obtain ⟨e, he, _⟩ := hex
    simp at he
  | cons e rest ih =>
    obtain ⟨k, q⟩ := e
    by_cases hk : a = k
    · have := h1 (k, q) (List.mem_cons_self _ _) hk
      simp only [rangeQueueMap, hk, if_true, this]
    · by_cases hc : a = commentTarget k
      · have := h2 (k, q) (List.mem_cons_self _ _) hk hc
        simp only [rangeQueueMap, hk, if_false, ← hc, if_true, this]
      · simp only [rangeQueueMap, hk, hc, if_false]
        apply ih
        · obtain ⟨e, he, hm⟩ := hex
          rcases List.mem_cons.mp he with h0 | h0
          · subst h0
            rcases hm with hm | hm
            · exact absurd hm hk
            · exact absurd hm hc
          · exact ⟨e, h0, hm⟩
        · exact fun e he => h1 e (List.mem_cons_of_mem _ he)
        · exact fun e he => h2 e (List.mem_cons_of_mem _ he)

theorem addressToQueueAction_eq (lower : Char → Char) (first second : AddressQueue)
    (email : GoString) (h : 1 ≤ Index (ToLower lower email) '@') :
    addressToQueueAction lower first second email =
      match rangeQueueMap (ToLower lower email) first with
      | some found => found
      | none =>
        match rangeQueueMap
          ((ToLower lower email).takeWhile (fun c => decide (c ≠ '@'))) second with
        | some found => found
        | none => ([], correspond) := by
  have hlt : ¬ Index (ToLower lower email) '@' < 1 := by omega
  simp only [addressToQueueAction, hlt, if_false,
    sliceTo_Index _ '@' (mem_of_one_le_Index _ h)]

/-- The two entries of a map that share a key are the same entry. -/
theorem entry_unique (table : AddressQueue) (hn : (table.map Prod.fst).Nodup)
    (e₁ e₂ : GoString × GoString) (h₁ : e₁ ∈ table) (h₂ : e₂ ∈ table) (h : e₁.1 = e₂.1) :
    e₁ = e₂ :=
  List.inj_on_of_nodup_map hn h₁ h₂ h

/-- A candidate that does not begin with `@` is matched by at most one entry of
a table in which no key is the comment-suffixed variant of another key: every
order of the table gives the same result. -/
theorem rangeQueueMap_perm (a : GoString) (table o o' : AddressQueue)
    (ha : ∀ rest, a ≠ '@' :: rest)
    (hn : (table.map Prod.fst).Nodup)
    (hvar : ∀ e₁ ∈ table, ∀ e₂ ∈ table, e₁.1 ≠ e₂.1 → e₁.1 ≠ commentSuffixed e₂.1)
    (ho : o.Perm table) (ho' : o'.Perm table) :
    rangeQueueMap a o = rangeQueueMap a o' := by
  cases hres : rangeQueueMap a o with
  | none =>
    symm
    apply rangeQueueMap_eq_none
    intro e he
    exact rangeQueueMap_none_elim a o hres e (ho.symm.subset (ho'.subset he))
  | some r =>
    symm
    obtain ⟨e, he, hm⟩ := rangeQueueMap_some a o r hres
    have het : e ∈ table := ho.subset he
    apply rangeQueueMap_of_unique
    · refine ⟨e, ho'.symm.subset het, ?_⟩
      rcases hm with hm | hm
      · exact Or.inl hm.1
      · exact Or.inr hm.2.1
    · intro e' he' h1
      have het' : e' ∈ table := ho'.subset he'
      rcases hm with hm | hm
      · have : e = e' := entry_unique table hn e e' het het' (hm.1.symm.trans h1)
        rw [← this]; exact hm.2
      · exfalso
        have hcs := eq_commentSuffixed_of_eq_commentTarget a e.1 ha hm.2.1
        have hne : e'.1 ≠ e.1 := by
          intro hc
          exact hm.1 (h1.trans hc)
        exact hvar e' het' e het hne (h1.symm.trans hcs)
    · intro e' he' h1 h2
      have het' : e' ∈ table := ho'.subset he'
      have hcs' := eq_commentSuffixed_of_eq_commentTarget a e'.1 ha h2
      rcases hm with hm | hm
      · exfalso
        have hne : e.1 ≠ e'.1 := by
          intro hc
          exact h1 (hm.1.trans hc)
        exact hvar e het e' het' hne (hm.1.symm.trans hcs')
      · have hcs := eq_commentSuffixed_of_eq_commentTarget a e.1 ha hm.2.1
        have hk : e.1 = e'.1 := commentSuffixed_injective _ _ (hcs.symm.trans hcs')
        have : e = e' := entry_unique table hn e e' het het' hk
        rw [← this]; exact hm.2.2

theorem asciiLower_at (c : Char) : asciiLower c = '@' ↔ c = '@' := by
  unfold asciiLower
  split
  · rename_i h
    constructor
    · intro hc
      exfalso
      have h2 := congrArg Char.toNat hc
      have hv : (c.toNat + 32).isValidChar := by
        left; omega
      rw [Char.ofNat, dif_pos hv] at h2
      simp only [Char.ofNatAux, Char.toNat, UInt32.toNat, BitVec.toNat_ofNatLt] at h2 h
      have h3 : ('@' : Char).val.toBitVec.toNat = 64 := by decide
      rw [h3] at h2
      omega
    · intro hc
      subst hc
      revert h
      decide
  · exact Iff.rfl

/-! ## The router: `addressToQueueAction` -/

/-- C9: an address that contains no `@`, or whose first `@` is at position 0 (the
empty string included), is routed to `("", "correspond")`, whatever the table and
the orders in which it is visited.  The rune map of `strings.ToLower` sends `@` to
`@` and nothing else to `@`. -/
theorem addressToQueueAction_without_local_part (lower : Char → Char)
    (hlower : ∀ c, lower c = '@' ↔ c = '@') (first second : AddressQueue)
    (email : GoString) (h : '@' ∉ email ∨ ∃ rest, email = '@' :: rest) :
    addressToQueueAction lower first second email = ([], correspond) := by
  have hlt : Index (ToLower lower email) '@' < 1 := by
    rw [Index_lt_one_iff]
    rcases h with h | ⟨rest, h⟩
    · left
      intro hc
      obtain ⟨c, hc, hcl⟩ := List.mem_map.mp hc
      exact h ((hlower c).mp hcl ▸ hc)
    · right
      exact ⟨rest.map lower, by simp [ToLower, h, (hlower '@').mpr rfl]⟩
  simp only [addressToQueueAction, hlt, if_true]

theorem addressToQueueAction_without_local_part_witness :
    ('@' ∉ "support".toList ∨ ∃ rest, "support".toList = '@' :: rest) ∧
      addressToQueueAction asciiLower bareTable bareTable "support".toList
        = ([], correspond) :=
  ⟨Or.inl (by decide),
    addressToQueueAction_without_local_part asciiLower asciiLower_at bareTable bareTable
      "support".toList (Or.inl (by decide))⟩

/-- C6: routing is case-insensitive on the input address: with the iteration
orders fixed, two addresses with the same lowercased form are routed alike. -/
theorem addressToQueueAction_case_insensitive (lower : Char → Char)
    (first second : AddressQueue) (a b : GoString)
    (h : ToLower lower a = ToLower lower b) :
    addressToQueueAction lower first second a = addressToQueueAction lower first second b := by
  simp only [addressToQueueAction, h]

theorem addressToQueueAction_case_insensitive_witness :
    ToLower asciiLower "Support@X.com".toList = ToLower asciiLower "support@x.com".toList ∧
      addressToQueueAction asciiLower supportTable supportTable "Support@X.com".toList
        = addressToQueueAction asciiLower supportTable supportTable "support@x.com".toList ∧
      addressToQueueAction asciiLower supportTable supportTable "Support@X.com".toList
        = ("support".toList, correspond) :=
  ⟨by decide,
    addressToQueueAction_case_insensitive asciiLower supportTable supportTable
      "Support@X.com".toList "support@x.com".toList (by decide),
    by decide⟩

/-- C1, amended: for every table, every pair of orders in which it is visited and
every entry `target -> queue` whose target is unchanged by lowercasing, has its
first `@` at an offset of at least 1 and is not the comment-suffixed variant of a
table key, `addressToQueueAction(target)` returns `(queue, "correspond")`. -/
theorem addressToQueueAction_exact_match (lower : Char → Char)
    (table first second : AddressQueue) (hr : Ranges table first second)
    (target queue : GoString) (hmem : (target, queue) ∈ table)
    (hlow : ToLower lower target = target) (hidx : 1 ≤ Index target '@')
    (hvar : ∀ e ∈ table, commentSuffixed e.1 ≠ target) :
    addressToQueueAction lower first second target = (queue, correspond) := by
  obtain ⟨hn, hf, _⟩ := hr
  have hidx' : 1 ≤ Index (ToLower lower target) '@' := by rw [hlow]; exact hidx
  rw [addressToQueueAction_eq lower first second target hidx', hlow]
  have hscan : rangeQueueMap target first = some (queue, correspond) := by
    apply rangeQueueMap_of_unique
    · exact ⟨(target, queue), hf.symm.subset hmem, Or.inl rfl⟩
    · intro e he h1
      have := entry_unique table hn (target, queue) e hmem (hf.subset he) h1
      rw [← this]
    · intro e he _ h2
      have hcs := eq_commentSuffixed_of_eq_commentTarget target e.1
        (not_head_of_one_le_Index target hidx) h2
      exact absurd hcs.symm (hvar e (hf.subset he))
  rw [hscan]

theorem addressToQueueAction_exact_match_witness :
    Ranges supportTable supportTable supportTable ∧
      ("support@x.com".toList, "support".toList) ∈ supportTable ∧
      addressToQueueAction asciiLower supportTable supportTable "support@x.com".toList
        = ("support".toList, correspond) :=
  ⟨by decide, by decide,
    addressToQueueAction_exact_match asciiLower supportTable supportTable supportTable
      (by decide) "support@x.com".toList "support".toList (by decide) (by decide) (by decide)
      (by decide)⟩

/-- C1 fails as stated at three entries: the bare key `support` is routed to
`("", "correspond")`; the key `Support@x.com` is routed to `("", "correspond")`;
and the key `a-comment@x.com -> q2`, visited after `a@x.com -> q1`, is routed to
`("q1", "comment")`. -/
theorem addressToQueueAction_exact_match_counterexample :
    (("support".toList, "support".toList) ∈ bareTable ∧
      addressToQueueAction asciiLower bareTable bareTable "support".toList
        = ([], correspond) ∧
      addressToQueueAction asciiLower bareTable bareTable "support".toList
        ≠ ("support".toList, correspond)) ∧
    (("Support@x.com".toList, "support".toList) ∈ upperTable ∧
      addressToQueueAction asciiLower upperTable upperTable "Support@x.com".toList
        = ([], correspond) ∧
      addressToQueueAction asciiLower upperTable upperTable "Support@x.com".toList
        ≠ ("support".toList, correspond)) ∧
    (("a-comment@x.com".toList, "q2".toList) ∈ shadowTable ∧
      addressToQueueAction asciiLower shadowTable shadowTable "a-comment@x.com".toList
        = ("q1".toList, comment) ∧
      addressToQueueAction asciiLower shadowTable shadowTable "a-comment@x.com".toList
        ≠ ("q2".toList, correspond)) := by
  decide

/-- C2, amended: for every table, every pair of orders in which it is visited and
every entry `key -> queue` whose key has its first `@` at an offset of at least 1,
when the key with `-comment` inserted before its `@` is unchanged by lowercasing
and is not itself a key of the table, `addressToQueueAction` of that address
returns `(queue, "comment")`. -/
theorem addressToQueueAction_comment_match (lower : Char → Char)
    (table first second : AddressQueue) (hr : Ranges table first second)
    (key queue : GoString) (hmem : (key, queue) ∈ table)
    (hidx : 1 ≤ Index key '@')
    (hlow : ToLower lower (commentSuffixed key) = commentSuffixed key)
    (hnokey : ∀ e ∈ table, e.1 ≠ commentSuffixed key) :
    addressToQueueAction lower first second (commentSuffixed key) = (queue, comment) := by
  obtain ⟨hn, hf, _⟩ := hr
  have hk := mem_of_one_le_Index key hidx
  have hhead := not_head_of_one_le_Index key hidx
  have hidx' : 1 ≤ Index (commentSuffixed key) '@' := by
    obtain ⟨A, B, hAB, hA⟩ := split_first_at key hk
    have hne : A ≠ [] := by
      intro hc
      exact hhead B (by rw [hAB, hc]; rfl)
    rw [hAB, commentSuffixed_split A B hA]
    apply one_le_Index_split
    · have := at_not_mem_commentSuffix
      simp [hA, this]
    · simp [hne]
  have hhead' := not_head_of_one_le_Index (commentSuffixed key) hidx'
  have hidx'' : 1 ≤ Index (ToLower lower (commentSuffixed key)) '@' := by
    rw [hlow]; exact hidx'
  rw [addressToQueueAction_eq lower first second _ hidx'', hlow]
  have hscan : rangeQueueMap (commentSuffixed key) first = some (queue, comment) := by
    apply rangeQueueMap_of_unique
    · exact ⟨(key, queue), hf.symm.subset hmem,
        Or.inr (commentTarget_eq_commentSuffixed key hhead).symm⟩
    · intro e he h1
      exact absurd h1.symm (hnokey e (hf.subset he))
    · intro e he _ h2
      have hcs := eq_commentSuffixed_of_eq_commentTarget _ e.1 hhead' h2
      have hkey : key = e.1 := commentSuffixed_injective _ _ hcs
      have := entry_unique table hn (key, queue) e hmem (hf.subset he) hkey
      rw [← this]
  rw [hscan]

theorem addressToQueueAction_comment_match_witness :
    Ranges supportTable supportTable supportTable ∧
      commentSuffixed "support@x.com".toList = "support-comment@x.com".toList ∧
      addressToQueueAction asciiLower supportTable supportTable
        (commentSuffixed "support@x.com".toList) = ("support".toList, comment) :=
  ⟨by decide, by decide,
    addressToQueueAction_comment_match asciiLower supportTable supportTable supportTable
      (by decide) "support@x.com".toList "support".toList (by decide) (by decide) (by decide)
      (by decide)⟩

/-- C2 fails as stated at three entries whose key contains `@`: for the key
`@x.com` the address `-comment@x.com` is routed to `("", "correspond")`; for the
key `Support@x.com` the address `Support-comment@x.com` is routed to
`("", "correspond")`; and for the key `a@x.com -> q1`, visited after
`a-comment@x.com -> q2`, the address `a-comment@x.com` is routed to
`("q2", "correspond")`. -/
theorem addressToQueueAction_comment_match_counterexample :
    (("@x.com".toList, "catchall".toList) ∈ emptyLocalTable ∧
      '@' ∈ "@x.com".toList ∧
      commentSuffixed "@x.com".toList = "-comment@x.com".toList ∧
      addressToQueueAction asciiLower emptyLocalTable emptyLocalTable
        "-comment@x.com".toList = ([], correspond) ∧
      addressToQueueAction asciiLower emptyLocalTable emptyLocalTable
        "-comment@x.com".toList ≠ ("catchall".toList, comment)) ∧
    (("Support@x.com".toList, "support".toList) ∈ upperTable ∧
      '@' ∈ "Support@x.com".toList ∧
      commentSuffixed "Support@x.com".toList = "Support-comment@x.com".toList ∧
      addressToQueueAction asciiLower upperTable upperTable
        "Support-comment@x.com".toList = ([], correspond) ∧
      addressToQueueAction asciiLower upperTable upperTable
        "Support-comment@x.com".toList ≠ ("support".toList, comment)) ∧
    (("a@x.com".toList, "q1".toList) ∈ shadowTable.reverse ∧
      '@' ∈ "a@x.com".toList ∧
      commentSuffixed "a@x.com".toList = "a-comment@x.com".toList ∧
      addressToQueueAction asciiLower shadowTable.reverse shadowTable.reverse
        "a-comment@x.com".toList = ("q2".toList, correspond) ∧
      addressToQueueAction asciiLower shadowTable.reverse shadowTable.reverse
        "a-comment@x.com".toList ≠ ("q1".toList, comment)) := by
  decide

/-- C8, amended: for every table, every pair of orders in which it is visited and
every entry `key -> queue` whose key contains no `@`, every address whose
lowercased form is `key + "-comment" + "@" + domain`, that no table key and no
comment-suffixed variant of a table key equals, is routed to `(queue, "comment")`,
provided `key + "-comment"` is not itself a key of the table. -/
theorem addressToQueueAction_comment_match_local (lower : Char → Char)
    (table first second : AddressQueue) (hr : Ranges table first second)
    (key queue : GoString) (hmem : (key, queue) ∈ table) (hat : '@' ∉ key)
    (email domain : GoString)
    (hemail : ToLower lower email = key ++ commentSuffix ++ '@' :: domain)
    (hfull : ∀ e ∈ table, e.1 ≠ ToLower lower email ∧
      commentSuffixed e.1 ≠ ToLower lower email)
    (hnokey : ∀ e ∈ table, e.1 ≠ key ++ commentSuffix) :
    addressToQueueAction lower first second email = (queue, comment) := by
  obtain ⟨hn, hf, hs⟩ := hr
  have hcs := at_not_mem_commentSuffix
  have hA : '@' ∉ key ++ commentSuffix := by simp [hat, hcs]
  have hne : key ++ commentSuffix ≠ [] := by simp [commentSuffix]
  have hidx : 1 ≤ Index (ToLower lower email) '@' := by
    rw [hemail]
    exact one_le_Index_split _ _ hA hne
  have hhead := not_head_of_one_le_Index _ hidx
  rw [addressToQueueAction_eq lower first second email hidx]
  have hfirst : rangeQueueMap (ToLower lower email) first = none := by
    apply rangeQueueMap_eq_none
    intro e he
    have := hfull e (hf.subset he)
    refine ⟨fun hc => this.1 hc.symm, fun hc => ?_⟩
    exact this.2 (eq_commentSuffixed_of_eq_commentTarget _ e.1 hhead hc).symm
  have hlocal : (ToLower lower email).takeWhile (fun c => decide (c ≠ '@'))
      = key ++ commentSuffix := by
    rw [hemail]
    exact takeWhile_split _ _ hA
  have hhead2 : ∀ rest, key ++ commentSuffix ≠ '@' :: rest := by
    intro rest hc
    exact hA (by rw [hc]; exact List.mem_cons_self _ _)
  have hkeyhead : ∀ rest, key ≠ '@' :: rest := by
    intro rest hc
    exact hat (by rw [hc]; exact List.mem_cons_self _ _)
  have hsecond : rangeQueueMap (key ++ commentSuffix) second = some (queue, comment) := by
    apply rangeQueueMap_of_unique
    · refine ⟨(key, queue), hs.symm.subset hmem, Or.inr ?_⟩
      rw [commentTarget_eq_commentSuffixed key hkeyhead, commentSuffixed_of_not_mem key hat]
    · intro e he h1
      exact absurd h1.symm (hnokey e (hs.subset he))
    · intro e he _ h2
      have h3 := eq_commentSuffixed_of_eq_commentTarget _ e.1 hhead2 h2
      rw [← commentSuffixed_of_not_mem key hat] at h3
      have hkey : key = e.1 := commentSuffixed_injective _ _ h3
      have := entry_unique table hn (key, queue) e hmem (hs.subset he) hkey
      rw [← this]
  rw [hfirst, hlocal, hsecond]

theorem addressToQueueAction_comment_match_local_witness :
    Ranges bareTable bareTable bareTable ∧
      ("support".toList, "support".toList) ∈ bareTable ∧
      addressToQueueAction asciiLower bareTable bareTable "Support-Comment@X.com".toList
        = ("support".toList, comment) :=
  ⟨by decide, by decide,
    addressToQueueAction_comment_match_local asciiLower bareTable bareTable bareTable
      (by decide) "support".toList "support".toList (by decide) (by decide)
      "Support-Comment@X.com".toList "x.com".toList (by decide) (by decide) (by decide)⟩

/-- C8 fails as stated: the key `support` contains no `@`, and the address
`support-comment` is routed to `("", "correspond")`, not to `("support", "comment")`. -/
theorem addressToQueueAction_comment_match_local_counterexample :
    ("support".toList, "support".toList) ∈ bareTable ∧
      '@' ∉ "support".toList ∧
      "support".toList ++ commentSuffix = "support-comment".toList ∧
      addressToQueueAction asciiLower bareTable bareTable "support-comment".toList
        = ([], correspond) ∧
      addressToQueueAction asciiLower bareTable bareTable "support-comment".toList
        ≠ ("support".toList, comment) := by
  decide

/-- C7: local-part fallback.  For every table, every pair of orders in which it is
visited and every address whose lowercased form has its first `@` at an offset of
at least 1: if no table key and no comment-suffixed variant of a table key equals
the lowercased address, the key `k` of an entry `k -> queue` equals the text
before the first `@` of the lowercased address, and no comment-suffixed variant of
a table key equals that text, then the address is routed to `(queue, "correspond")`. -/
theorem addressToQueueAction_local_part_fallback (lower : Char → Char)
    (table first second : AddressQueue) (hr : Ranges table first second)
    (email k queue : GoString)
    (hidx : 1 ≤ Index (ToLower lower email) '@')
    (hfull : ∀ e ∈ table, e.1 ≠ ToLower lower email ∧
      commentSuffixed e.1 ≠ ToLower lower email)
    (hmem : (k, queue) ∈ table)
    (hk : k = (ToLower lower email).takeWhile (fun c => decide (c ≠ '@')))
    (hcomment : ∀ e ∈ table,
      commentSuffixed e.1 ≠ (ToLower lower email).takeWhile (fun c => decide (c ≠ '@'))) :
    addressToQueueAction lower first second email = (queue, correspond) := by
  obtain ⟨hn, hf, hs⟩ := hr
  have hhead := not_head_of_one_le_Index _ hidx
  rw [addressToQueueAction_eq lower first second email hidx]
  have hfirst : rangeQueueMap (ToLower lower email) first = none := by
    apply rangeQueueMap_eq_none
    intro e he
    have := hfull e (hf.subset he)
    refine ⟨fun hc => this.1 hc.symm, fun hc => ?_⟩
    exact this.2 (eq_commentSuffixed_of_eq_commentTarget _ e.1 hhead hc).symm
  have hsecond : rangeQueueMap
      ((ToLower lower email).takeWhile (fun c => decide (c ≠ '@'))) second
      = some (queue, correspond) := by
    apply rangeQueueMap_of_unique
    · exact ⟨(k, queue), hs.symm.subset hmem, Or.inl hk.symm⟩
    · intro e he h1
      have := entry_unique table hn (k, queue) e hmem (hs.subset he) (hk.trans h1)
      rw [← this]
    · intro e he _ h2
      have h3 := eq_commentSuffixed_of_eq_commentTarget _ e.1
        (takeWhile_not_head (ToLower lower email)) h2
      exact absurd h3.symm (hcomment e (hs.subset he))
  rw [hfirst, hsecond]

theorem addressToQueueAction_local_part_fallback_witness :
    Ranges mixedTable mixedTable.reverse mixedTable ∧
      ("sales".toList, "sales".toList) ∈ mixedTable ∧
      addressToQueueAction asciiLower mixedTable.reverse mixedTable
        "Sales@a@b.org".toList = ("sales".toList, correspond) :=
  ⟨by decide, by decide,
    addressToQueueAction_local_part_fallback asciiLower mixedTable mixedTable.reverse
      mixedTable (by decide) "Sales@a@b.org".toList "sales".toList "sales".toList
      (by decide) (by decide) (by decide) (by decide) (by decide)⟩

/-- C10: order independence.  For every table with distinct keys in which no key
equals the comment-suffixed variant of another key, and for every address,
`addressToQueueAction` returns the same pair under every choice of the orders in
which its two loops visit the table. -/
theorem addressToQueueAction_order_independent (lower : Char → Char)
    (table first second first' second' : AddressQueue)
    (hr : Ranges table first second) (hr' : Ranges table first' second')
    (hvar : ∀ e₁ ∈ table, ∀ e₂ ∈ table, e₁.1 ≠ e₂.1 → e₁.1 ≠ commentSuffixed e₂.1)
    (email : GoString) :
    addressToQueueAction lower first second email
      = addressToQueueAction lower first' second' email := by
  obtain ⟨hn, hf, hs⟩ := hr
  obtain ⟨_, hf', hs'⟩ := hr'
  by_cases hidx : 1 ≤ Index (ToLower lower email) '@'
  · rw [addressToQueueAction_eq lower first second email hidx,
      addressToQueueAction_eq lower first' second' email hidx,
      rangeQueueMap_perm _ table first first' (not_head_of_one_le_Index _ hidx) hn hvar hf hf',
      rangeQueueMap_perm _ table second second' (takeWhile_not_head (ToLower lower email))
        hn hvar hs hs']
  · have hlt : Index (ToLower lower email) '@' < 1 := by omega
    simp only [addressToQueueAction, hlt, if_true]

theorem addressToQueueAction_order_independent_witness :
    Ranges mixedTable mixedTable mixedTable.reverse ∧
      Ranges mixedTable mixedTable.reverse mixedTable ∧
      addressToQueueAction asciiLower mixedTable mixedTable.reverse
        "Sales-Comment@y.org".toList
        = addressToQueueAction asciiLower mixedTable.reverse mixedTable
          "Sales-Comment@y.org".toList ∧
      addressToQueueAction asciiLower mixedTable mixedTable.reverse
        "Sales-Comment@y.org".toList = ("sales".toList, comment) :=
  ⟨by decide, by decide,
    addressToQueueAction_order_independent asciiLower mixedTable mixedTable
      mixedTable.reverse mixedTable.reverse mixedTable (by decide) (by decide) (by decide)
      "Sales-Comment@y.org".toList,
    by decide⟩

/-! ## The handler: `postHandler` -/

/-- The loop on a batch without `null` element, every POST being answered: one
form per `inbound` event, in array order, and `gotErr` set exactly when it was set
before or one of the POSTs was rejected. -/
theorem rangeEvents_of_responses (lower : Char → Char)
    (ranges : Nat → AddressQueue × AddressQueue) (PostForm : Nat → Form → PostResult)
    (hresp : ∀ n form, (PostForm n form).resp ≠ none)
    (events : List (Option MandrillEvent)) (hnn : ∀ e ∈ events, e ≠ none)
    (posts : List Form) (gotErr : Bool) :
    rangeEvents lower ranges PostForm events posts gotErr
      = (posts ++ ((inboundEvents events).enumFrom posts.length).map
            (fun p => formOf lower ranges p.1 p.2),
          some (gotErr || ((inboundEvents events).enumFrom posts.length).any
            (fun p => rejected PostForm p.1 (formOf lower ranges p.1 p.2)))) := by
  induction events generalizing posts gotErr with
  | nil => simp [rangeEvents, inboundEvents]
  | cons e rest ih =>
    have hrest : ∀ e ∈ rest, e ≠ none := fun e' he' => hnn e' (List.mem_cons_of_mem _ he')
    cases e with
    | none => exact absurd rfl (hnn none (List.mem_cons_self _ _))
    | some event =>
      by_cases hev : event.Event = inbound
      · have hin : inboundEvents (some event :: rest) = event :: inboundEvents rest := by
          simp [inboundEvents, hev]
        cases hr : (PostForm posts.length (formOf lower ranges posts.length event)).resp with
        | none => exact absurd hr (hresp _ _)
        | some resp =>
          have hr' : (PostForm posts.length
              ⟨(addressToQueueAction lower (ranges posts.length).1 (ranges posts.length).2
                  event.Msg.Email).1,
                (addressToQueueAction lower (ranges posts.length).1 (ranges posts.length).2
                  event.Msg.Email).2, event.Msg.RawMsg⟩).resp = some resp := hr
          simp only [rangeEvents, hev, ne_eq, not_true_eq_false, if_false, hr', hin]
          rw [ih hrest]
          simp only [List.length_append, List.length_singleton, List.enumFrom_cons,
            List.map_cons, List.any_cons, List.append_assoc, List.singleton_append,
            rejected, hr]
          congr 2
          by_cases hs : resp.StatusCode > 299 <;> simp [hs, formOf]
      · have hin : inboundEvents (some event :: rest) = inboundEvents rest := by
          simp [inboundEvents, hev]
        simp only [rangeEvents, hev, ne_eq, not_false_eq_true, if_true, hin]
        exact ih hrest posts gotErr

/-- The handler answers 500 and posts nothing when the payload does not decode. -/
theorem postHandler_decode_error (lower : Char → Char)
    (ranges : Nat → AddressQueue × AddressQueue) (PostForm : Nat → Form → PostResult) :
    postHandler lower ranges PostForm none = ⟨[], Written.header 500⟩ :=
  rfl

/-- The handler on a decoded batch without `null` element, every POST being
answered: one POST per `inbound` event, in array order, each with the routed queue
and action and the raw message text; the status is 503 when one of the POSTs got a
status above 299 and 204 otherwise. -/
theorem postHandler_of_responses (lower : Char → Char)
    (ranges : Nat → AddressQueue × AddressQueue) (PostForm : Nat → Form → PostResult)
    (hresp : ∀ n form, (PostForm n form).resp ≠ none)
    (events : List (Option MandrillEvent)) (hnn : ∀ e ∈ events, e ≠ none) :
    postHandler lower ranges PostForm (some events)
      = ⟨(inboundEvents events).enum.map (fun p => formOf lower ranges p.1 p.2),
          Written.header
            (if (inboundEvents events).enum.any
                (fun p => rejected PostForm p.1 (formOf lower ranges p.1 p.2))
              then 503 else 204)⟩ := by
  simp only [postHandler, rangeEvents_of_responses lower ranges PostForm hresp events hnn,
    List.length_nil, List.nil_append, Bool.false_or, List.enum]

theorem postHandler_of_responses_witness :
    postHandler asciiLower supportRanges gatewayOk
      (some [some inboundSupport, some sendEvent, some inboundOther])
      = ⟨[⟨"support".toList, correspond, "raw-1".toList⟩, ⟨[], correspond, "raw-2".toList⟩],
          Written.header 204⟩ :=
  (postHandler_of_responses asciiLower supportRanges gatewayOk
    (fun _ _ => by simp [gatewayOk])
    [some inboundSupport, some sendEvent, some inboundOther] (by decide)).trans (by decide)

/-- C3: the code at a transport error.  The batch holds two `inbound` events and
the first POST returns no response.  The handler logs the error and then reads
`resp.Body` of the nil response (line 113): it ends in a panic, having posted the
first form only; the second event is not forwarded and no 503 is written. -/
theorem postHandler_transport_error_panics :
    (gatewayFirstUnreachable 0 ⟨"support".toList, correspond, "raw-1".toList⟩).resp = none ∧
    postHandler asciiLower supportRanges gatewayFirstUnreachable
      (some [some inboundSupport, some inboundOther])
      = ⟨[⟨"support".toList, correspond, "raw-1".toList⟩], Written.panicked⟩ ∧
    (postHandler asciiLower supportRanges gatewayFirstUnreachable
      (some [some inboundSupport, some inboundOther])).written ≠ Written.header 503 ∧
    (postHandler asciiLower supportRanges gatewayFirstUnreachable
      (some [some inboundSupport, some inboundOther])).posts.length = 1 := by
  decide

/-- C4: the code at the payload `[null]`.  The payload decodes without error to a
slice holding one nil pointer, no POST is made, and reading `event.Event`
(line 84) panics: the handler writes neither 204 nor any other status. -/
theorem postHandler_null_event_panics :
    postHandler asciiLower supportRanges gatewayOk (some [none])
      = ⟨[], Written.panicked⟩ ∧
    (postHandler asciiLower supportRanges gatewayOk (some [none])).written
      ≠ Written.header 204 := by
  decide

/-- C5: the code at the payload with an `inbound` event, `null`, and a second
`inbound` event, every POST being answered with 200.  The handler posts the form of
the first event and panics at the nil pointer: the second `inbound` event gets no
POST. -/
theorem postHandler_null_event_stops_posts :
    postHandler asciiLower supportRanges gatewayOk
      (some [some inboundSupport, none, some inboundOther])
      = ⟨[⟨"support".toList, correspond, "raw-1".toList⟩], Written.panicked⟩ ∧
    (postHandler asciiLower supportRanges gatewayOk
      (some [some inboundSupport, none, some inboundOther])).posts.length = 1 ∧
    (inboundEvents [some inboundSupport, none, some inboundOther]).length = 2 := by
  decide

end SparkpostRT
